import Mathlib

/-!
# Pico Linear Hall Effect Sensor: a shallow embedding of `lhe.c`

The driver keeps four file-scope statics (`num_samples`,
`num_calibration_samples`, `sensitivity`, `next_id`) and a per-sensor record
`lhe_sensor_t`.  Every function of `lhe.c` is translated to a Lean function
that passes the statics, the sensor and the ADC explicitly.

Machine integers are `Nat`/`Int` with the C conversions written out:
`uint8_t`/`uint16_t`/`uint32_t` arithmetic is reduced modulo `2^8`, `2^16`,
`2^32`; a conversion to `int16_t` wraps into `-32768..32767`; `>>` on a
negative `int32_t` is the arithmetic shift (`Int.shiftRight`); `/` on `int`
truncates toward zero (`Int.tdiv`).  A division by zero is undefined behaviour
in C and is the `none` result of the embedding.
-/

namespace LHE

/-! ## Data model -/

/-- The record `lhe_sensor_t` of `lhe.h`: `id` and `adc_channel` are `uint8_t`,
`offset` is `int16_t`. -/
structure lhe_sensor_t where
  id : Nat
  adc_channel : Nat
  offset : Int

/-- The file-scope statics of `lhe.c`, with their initialisers:
`num_samples = 10`, `num_calibration_samples = 1000`, `sensitivity = 18`
(all `uint16_t`) and `next_id = 0` (`uint8_t`). -/
structure lhe_statics where
  num_samples : Nat
  num_calibration_samples : Nat
  sensitivity : Nat
  next_id : Nat

/-- The statics as initialised at program start. -/
def lhe_statics_default : lhe_statics :=
  { num_samples := 10, num_calibration_samples := 1000, sensitivity := 18, next_id := 0 }

/-- The statics hold values of their C types. -/
def lhe_statics.wf (g : lhe_statics) : Prop :=
  g.num_samples < 65536 ∧ g.num_calibration_samples < 65536 ∧
    g.sensitivity < 65536 ∧ g.next_id < 256

/-- Modelled from the spec: the ADC collaborator of `hardware/adc.h`, which
is not part of the repository.  `input` is the channel made active by the last
`adc_select_input`, `pos` counts the conversions performed so far, and
`samples c k` is the code that conversion number `k` yields when channel `c`
is the active one. -/
structure adc_t where
  input : Nat
  pos : Nat
  samples : Nat → Nat → Nat

/-- Modelled from the spec: `adc_select_input(input)` makes a channel active
for the subsequent conversions; it has no result. -/
def adc_select_input (input : Nat) (adc : adc_t) : adc_t :=
  { adc with input := input }

/-- Modelled from the spec: `adc_read()` performs one conversion on the active
channel and returns it as a `uint16_t`. -/
def adc_read (adc : adc_t) : Nat × adc_t :=
  (adc.samples adc.input adc.pos % 65536, { adc with pos := adc.pos + 1 })

/-- Every conversion result is a 12-bit ADC code, `0..4095`. -/
def adc_t.in_range (adc : adc_t) : Prop :=
  ∀ c k, adc.samples c k ≤ 4095

/-! ## Integer conversions -/

/-- Conversion of an integer value to `int16_t` (two's complement wrap). -/
def to_int16 (x : Int) : Int :=
  if x % 65536 < 32768 then x % 65536 else x % 65536 - 65536

/-- Conversion of an unsigned value to `uint16_t`. -/
def to_uint16 (x : Nat) : Nat := x % 65536

/-! ## The functions of `lhe.c` -/

/-- `lhe_init`: `sensor.id = next_id++` on a `uint8_t` counter, the `switch`
on the pin, and `offset = 0`. -/
def lhe_init ( GPIO : Nat) (g : lhe_statics) : lhe_sensor_t × lhe_statics :=
  let id := g.next_id
  let g1 := { g with next_id := (g.next_id + 1) % 256 }
  let adc_channel :=
    match GPIO with
    | 28 => 2
    | 27 => 1
    | _ => 0
  ({ id := id, adc_channel := adc_channel, offset := 0 }, g1)

/-- The loop `for (int i = 0; i < n; i++) sum += adc_read();` with a
`uint32_t` accumulator; the first argument is the number of iterations that
remain. -/
def sample_loop : Nat → Nat → adc_t → Nat × adc_t
  | 0, sum, adc => (sum, adc)
  | k + 1, sum, adc =>
    let r := adc_read adc
    sample_loop k ((sum + r.1) % 4294967296) r.2

/-- `lhe_calibrate`: select the channel, accumulate
`num_calibration_samples` conversions, store `(int16_t)(sum / count)` in
`sensor->offset` and return it.  The result is the returned value, the updated
sensor and the ADC after the call. -/
def lhe_calibrate (g : lhe_statics) (sensor : lhe_sensor_t) (adc : adc_t) :
    Option (Int × lhe_sensor_t × adc_t) :=
  let adc1 := adc_select_input sensor.adc_channel adc
  let r := sample_loop g.num_calibration_samples 0 adc1
  if g.num_calibration_samples = 0 then none
  else
    let sensor1 := { sensor with offset := to_int16 ((r.1 / g.num_calibration_samples : Nat) : Int) }
    some (sensor1.offset, sensor1, r.2)

/-- `lhe_get`: select the channel, accumulate `num_samples` conversions,
`adc_value = (uint16_t)(sum / num_samples)`, return `adc_value - offset`
computed in `int`. -/
def lhe_get (g : lhe_statics) (sensor : lhe_sensor_t) (adc : adc_t) :
    Option (Int × adc_t) :=
  let adc1 := adc_select_input sensor.adc_channel adc
  let r := sample_loop g.num_samples 0 adc1
  if g.num_samples = 0 then none
  else
    let adc_value := to_uint16 (r.1 / g.num_samples)
    some ((adc_value : Int) - sensor.offset, r.2)

/-- `lhe_get_raw`: select the channel and return one conversion. -/
def lhe_get_raw (sensor : lhe_sensor_t) (adc : adc_t) : Nat × adc_t :=
  adc_read (adc_select_input sensor.adc_channel adc)

/-- The return expression of `lhe_get_voltage`: `(adc_value * 825) >> 10`
converted to the `int16_t` return type. -/
def voltage_of (adc_value : Int) : Int :=
  to_int16 ((adc_value * 825) >>> (10 : Nat))

/-- `lhe_get_voltage`: `adc_value = lhe_get(sensor)` and then
`(adc_value * 825) >> 10`. -/
def lhe_get_voltage (g : lhe_statics) (sensor : lhe_sensor_t) (adc : adc_t) :
    Option (Int × adc_t) :=
  match lhe_get g sensor adc with
  | none => none
  | some (adc_value, adc1) => some (voltage_of adc_value, adc1)

/-- `lhe_get_strength`: `adc_mv = lhe_get_voltage(sensor)` and then
`adc_mv / sensitivity` in `int`, converted to the `int16_t` return type. -/
def lhe_get_strength (g : lhe_statics) (sensor : lhe_sensor_t) (adc : adc_t) :
    Option (Int × adc_t) :=
  match lhe_get_voltage g sensor adc with
  | none => none
  | some (adc_mv, adc1) =>
    if g.sensitivity = 0 then none
    else some (to_int16 (Int.tdiv adc_mv (g.sensitivity : Int)), adc1)

/-- `lhe_set_sensitivity`: plain overwrite of the static. -/
def lhe_set_sensitivity (s : Nat) (g : lhe_statics) : lhe_statics :=
  { g with sensitivity := s }

/-- `lhe_set_num_samples`: plain overwrite of the static. -/
def lhe_set_num_samples (n : Nat) (g : lhe_statics) : lhe_statics :=
  { g with num_samples := n }

/-- A run of `lhe_init` calls, one per pin of the list, in order; the result
is the sensors in creation order and the statics after the last call. -/
def lhe_init_seq : List Nat → lhe_statics → List lhe_sensor_t × lhe_statics
  | [], g => ([], g)
  | GPIO :: rest, g =>
    let r := lhe_init GPIO g
    let rs := lhe_init_seq rest r.2
    (r.1 :: rs.1, rs.2)

/-! ## Reference quantities -/

/-- The sum of the next `n` conversions on channel `c`, each as the
`uint16_t` that `adc_read` returns. -/
def read_sum (adc : adc_t) (c : Nat) (n : Nat) : Nat :=
  ∑ i ∈ Finset.range n, adc.samples c (adc.pos + i) % 65536

/-- The sum of the `n` conversions that follow position `pos` on channel `c`. -/
def batch_sum (adc : adc_t) (c : Nat) (n : Nat) : Nat :=
  ∑ i ∈ Finset.range n, adc.samples c (adc.pos + i)

/-- The truncating integer mean of the next `n` conversions on channel `c`. -/
def batch_mean (adc : adc_t) (c : Nat) (n : Nat) : Nat :=
  batch_sum adc c n / n

/-- The ADC after `n` conversions on channel `c`. -/
def adc_after (adc : adc_t) (c : Nat) (n : Nat) : adc_t :=
  { input := c, pos := adc.pos + n, samples := adc.samples }

/-- An ADC whose every conversion yields `V`. -/
def adc_const (V : Nat) (input pos : Nat) : adc_t :=
  { input := input, pos := pos, samples := fun _ _ => V }

/-! ## Calls of the public interface -/

/-- What a caller of `lhe.h` holds: the statics of `lhe.c`, the sensor it
passes by pointer, and the ADC. -/
structure lhe_world where
  g : lhe_statics
  sensor : lhe_sensor_t
  adc : adc_t

/-- The functions declared in `lhe.h`, with their arguments. -/
inductive lhe_call where
  | init ( GPIO : Nat)
  | calibrate
  | get
  | get_raw
  | get_voltage
  | get_strength
  | set_sensitivity (s : Nat)
  | set_num_samples (n : Nat)

/-- One call of the public interface: `sensor = lhe_init(GPIO)`,
`lhe_calibrate(&sensor)`, `lhe_get(&sensor)`, and so on.  The state after the
call holds what the callee wrote: `lhe_init` the statics and the new sensor,
`lhe_calibrate` the sensor and the ADC, the readers the ADC, the setters the
statics.  `none` is a call that divides by zero. -/
def lhe_exec : lhe_call → lhe_world → Option lhe_world
  | .init GPIO, w =>
    let r := lhe_init GPIO w.g
    some { g := r.2, sensor := r.1, adc := w.adc }
  | .calibrate, w =>
    match lhe_calibrate w.g w.sensor w.adc with
    | none => none
    | some (_, sensor1, adc1) => some { g := w.g, sensor := sensor1, adc := adc1 }
  | .get, w =>
    match lhe_get w.g w.sensor w.adc with
    | none => none
    | some (_, adc1) => some { g := w.g, sensor := w.sensor, adc := adc1 }
  | .get_raw, w =>
    some { g := w.g, sensor := w.sensor, adc := (lhe_get_raw w.sensor w.adc).2 }
  | .get_voltage, w =>
    match lhe_get_voltage w.g w.sensor w.adc with
    | none => none
    | some (_, adc1) => some { g := w.g, sensor := w.sensor, adc := adc1 }
  | .get_strength, w =>
    match lhe_get_strength w.g w.sensor w.adc with
    | none => none
    | some (_, adc1) => some { g := w.g, sensor := w.sensor, adc := adc1 }
  | .set_sensitivity s, w =>
    some { g := lhe_set_sensitivity s w.g, sensor := w.sensor, adc := w.adc }
  | .set_num_samples n, w =>
    some { g := lhe_set_num_samples n w.g, sensor := w.sensor, adc := w.adc }

/-- A sequence of calls of the public interface, in order. -/
def lhe_run : List lhe_call → lhe_world → Option lhe_world
  | [], w => some w
  | c :: cs, w =>
    match lhe_exec c w with
    | none => none
    | some w1 => lhe_run cs w1

/-- The call is `lhe_init`. -/
def lhe_call.is_init : lhe_call → Bool
  | .init _ => true
  | _ => false

/-- The call is `lhe_calibrate`. -/
def lhe_call.is_calibrate : lhe_call → Bool
  | .calibrate => true
  | _ => false

/-- The call is one of the two setters. -/
def lhe_call.is_setter : lhe_call → Bool
  | .set_sensitivity _ => true
  | .set_num_samples _ => true
  | _ => false

/-- The relative error of `approx` against `exact`, in percent. -/
def rel_error_percent (exact approx : Int) : ℚ :=
  |((exact - approx : Int) : ℚ)| / (exact : ℚ) * 100

/-- Rounding to two decimal places, half up. -/
def round2 (x : ℚ) : ℚ :=
  (⌊x * 100 + 1 / 2⌋ : ℚ) / 100

/-! ## The sampling loop -/

theorem sample_loop_snd (k : Nat) : ∀ (sum : Nat) (adc : adc_t),
    (sample_loop k sum adc).2 = { adc with pos := adc.pos + k } := by
  induction k with
  | zero => intro sum adc; rfl
  | succ k ih =>
    intro sum adc
    simp only [sample_loop, adc_read, ih]
    simp [Nat.add_assoc, Nat.add_comm 1 k]

theorem sample_loop_fst (k : Nat) : ∀ (sum : Nat) (adc : adc_t), sum < 4294967296 →
    (sample_loop k sum adc).1 = (sum + read_sum adc adc.input k) % 4294967296 := by
  induction k with
  | zero =>
    intro sum adc h
    simp [sample_loop, read_sum, Nat.mod_eq_of_lt h]
  | succ k ih =>
    intro sum adc h
    have hlt : (sum + adc.samples adc.input adc.pos % 65536) % 4294967296 < 4294967296 :=
      Nat.mod_lt _ (by norm_num)
    simp only [sample_loop, adc_read]
    rw [ih _ _ hlt]
    simp only [read_sum, Finset.sum_range_succ', Nat.add_zero]
    have hshift : ∀ i, adc.pos + 1 + i = adc.pos + (i + 1) := fun i => by omega
    simp only [hshift]
    omega

theorem read_sum_le (adc : adc_t) (c n : Nat) : read_sum adc c n ≤ 65535 * n := by
  unfold read_sum
  induction n with
  | zero => simp
  | succ n ih =>
    rw [Finset.sum_range_succ]
    have : adc.samples c (adc.pos + n) % 65536 < 65536 := Nat.mod_lt _ (by norm_num)
    omega

theorem read_sum_eq_batch_sum (adc : adc_t) (h : adc.in_range) (c n : Nat) :
    read_sum adc c n = batch_sum adc c n := by
  unfold read_sum batch_sum
  refine Finset.sum_congr rfl (fun i _ => Nat.mod_eq_of_lt ?_)
  have := h c (adc.pos + i)
  omega

theorem batch_sum_le (adc : adc_t) (h : adc.in_range) (c n : Nat) :
    batch_sum adc c n ≤ 4095 * n := by
  unfold batch_sum
  induction n with
  | zero => simp
  | succ n ih =>
    rw [Finset.sum_range_succ]
    have := h c (adc.pos + n)
    omega

/-- With at most `65535` iterations the `uint32_t` accumulator does not wrap:
the loop started at `0` returns the sum of the conversions it read. -/
theorem sample_loop_zero (n : Nat) (hn : n < 65536) (c : Nat) (adc : adc_t) :
    sample_loop n 0 (adc_select_input c adc) = (read_sum adc c n, adc_after adc c n) := by
  have h1 := sample_loop_fst n 0 (adc_select_input c adc) (by norm_num)
  have h2 := sample_loop_snd n 0 (adc_select_input c adc)
  have hle := read_sum_le adc c n
  have hlt : read_sum adc c n < 4294967296 := by
    have : 65535 * n ≤ 65535 * 65535 := Nat.mul_le_mul_left _ (by omega)
    omega
  refine Prod.ext ?_ ?_
  · rw [h1]
    simp only [adc_select_input, Nat.zero_add]
    exact Nat.mod_eq_of_lt hlt
  · rw [h2]; rfl

theorem batch_mean_le (adc : adc_t) (h : adc.in_range) (c n : Nat) :
    batch_mean adc c n ≤ 4095 := by
  unfold batch_mean
  rcases Nat.eq_zero_or_pos n with h0 | hpos
  · subst h0; simp
  · have := batch_sum_le adc h c n
    exact Nat.div_le_of_le_mul (by simpa [Nat.mul_comm] using this)

theorem to_int16_of_small (x : Int) (h0 : -32768 ≤ x) (h1 : x < 32768) : to_int16 x = x := by
  unfold to_int16
  split <;> omega

theorem to_int16_range (x : Int) : -32768 ≤ to_int16 x ∧ to_int16 x < 32768 := by
  unfold to_int16
  split <;> omega

/-! ## Calibration and the calibrated read -/

theorem lhe_get_eq (g : lhe_statics) (sensor : lhe_sensor_t) (adc : adc_t)
    (hn : 1 ≤ g.num_samples) (hty : g.num_samples < 65536) (hr : adc.in_range) :
    lhe_get g sensor adc =
      some ((batch_mean adc sensor.adc_channel g.num_samples : Int) - sensor.offset,
        adc_after adc sensor.adc_channel g.num_samples) := by
  have hne : g.num_samples ≠ 0 := by omega
  have hm := batch_mean_le adc hr sensor.adc_channel g.num_samples
  have hmod : batch_mean adc sensor.adc_channel g.num_samples % 65536 =
      batch_mean adc sensor.adc_channel g.num_samples := Nat.mod_eq_of_lt (by omega)
  unfold lhe_get
  dsimp only
  rw [sample_loop_zero _ hty, if_neg hne]
  dsimp only
  rw [read_sum_eq_batch_sum adc hr]
  show some (((batch_mean adc sensor.adc_channel g.num_samples % 65536 : Nat) : Int)
    - sensor.offset, _) = _
  rw [hmod]

theorem lhe_calibrate_eq (g : lhe_statics) (sensor : lhe_sensor_t) (adc : adc_t)
    (hn : 1 ≤ g.num_calibration_samples) (hty : g.num_calibration_samples < 65536)
    (hr : adc.in_range) :
    lhe_calibrate g sensor adc =
      some ((batch_mean adc sensor.adc_channel g.num_calibration_samples : Int),
        { id := sensor.id, adc_channel := sensor.adc_channel,
          offset := (batch_mean adc sensor.adc_channel g.num_calibration_samples : Int) },
        adc_after adc sensor.adc_channel g.num_calibration_samples) := by
  have hne : g.num_calibration_samples ≠ 0 := by omega
  have hm := batch_mean_le adc hr sensor.adc_channel g.num_calibration_samples
  have hi : to_int16 (batch_mean adc sensor.adc_channel g.num_calibration_samples : Int) =
      (batch_mean adc sensor.adc_channel g.num_calibration_samples : Int) :=
    to_int16_of_small _ (by omega) (by omega)
  unfold lhe_calibrate
  dsimp only
  rw [sample_loop_zero _ hty, if_neg hne]
  dsimp only
  rw [read_sum_eq_batch_sum adc hr]
  show some (to_int16 (batch_mean adc sensor.adc_channel g.num_calibration_samples : Int),
    ({ id := sensor.id, adc_channel := sensor.adc_channel,
       offset := to_int16 (batch_mean adc sensor.adc_channel g.num_calibration_samples : Int) }
        : lhe_sensor_t), _) = _
  rw [hi]

theorem adc_const_in_range (V input pos : Nat) (hV : V ≤ 4095) :
    (adc_const V input pos).in_range := fun _ _ => hV

theorem batch_mean_const (V input pos c n : Nat) (hn : 1 ≤ n) :
    batch_mean (adc_const V input pos) c n = V := by
  unfold batch_mean batch_sum adc_const
  simp only [Finset.sum_const, Finset.card_range, smul_eq_mul]
  exact Nat.mul_div_cancel_left V (by omega)

theorem adc_after_const (V input pos c n : Nat) :
    adc_after (adc_const V input pos) c n = adc_const V c (pos + n) := rfl

theorem voltage_of_zero : voltage_of 0 = 0 := by decide

theorem lhe_get_voltage_of_get (g : lhe_statics) (sensor : lhe_sensor_t) (adc adc1 : adc_t)
    (v : Int) (h : lhe_get g sensor adc = some (v, adc1)) :
    lhe_get_voltage g sensor adc = some (voltage_of v, adc1) := by
  unfold lhe_get_voltage
  rw [h]

theorem lhe_get_strength_of_voltage (g : lhe_statics) (sensor : lhe_sensor_t) (adc adc1 : adc_t)
    (mv : Int) (h : lhe_get_voltage g sensor adc = some (mv, adc1)) (hs : g.sensitivity ≠ 0) :
    lhe_get_strength g sensor adc =
      some (to_int16 (Int.tdiv mv (g.sensitivity : Int)), adc1) := by
  unfold lhe_get_strength
  rw [h]
  simp only [hs, if_false]

/-- The value `lhe_get` returns on a sensor whose offset is an `int16_t` lies
in `-32767..98303`, so the product `adc_value * 825` of `lhe_get_voltage`
fits `int32_t`: the multiplication does not overflow. -/
theorem lhe_get_result_fits_int32 (g : lhe_statics) (sensor : lhe_sensor_t) (adc adc1 : adc_t)
    (v : Int) (hlo : -32768 ≤ sensor.offset) (hhi : sensor.offset < 32768)
    (h : lhe_get g sensor adc = some (v, adc1)) :
    -32767 ≤ v ∧ v ≤ 98303 ∧ -2147483648 ≤ v * 825 ∧ v * 825 < 2147483648 := by
  unfold lhe_get at h
  dsimp only at h
  split at h
  · cases h
  · cases h
    unfold to_uint16
    omega

/-! ## Claims on the calibrated read and on calibration -/

/-- C1: for every sensor, every smoothing sample count `n` with `1 ≤ n` (a
`uint16_t`) and every ADC whose conversions lie in `0..4095`, `lhe_get`
returns exactly the truncating integer mean of the next `n` conversions minus
the sensor's offset, as a signed value, after consuming those `n`
conversions; the result is negative whenever the mean is below the offset, and
with offset `2048` and all conversions `0` it is `-2048`. -/
theorem lhe_get_returns_mean_minus_offset (g : lhe_statics) (sensor : lhe_sensor_t)
    (adc : adc_t) (hn : 1 ≤ g.num_samples) (hty : g.num_samples < 65536)
    (hr : adc.in_range) :
    lhe_get g sensor adc =
        some ((batch_mean adc sensor.adc_channel g.num_samples : Int) - sensor.offset,
          adc_after adc sensor.adc_channel g.num_samples) ∧
      ((batch_mean adc sensor.adc_channel g.num_samples : Int) < sensor.offset →
        ∃ r adc1, lhe_get g sensor adc = some (r, adc1) ∧ r < 0) ∧
      (sensor.offset = 2048 → (∀ c k, adc.samples c k = 0) →
        lhe_get g sensor adc = some (-2048, adc_after adc sensor.adc_channel g.num_samples)) := by
  have h := lhe_get_eq g sensor adc hn hty hr
  refine ⟨h, fun hlt => ⟨_, _, h, by omega⟩, fun ho hz => ?_⟩
  rw [h]
  have hm : batch_mean adc sensor.adc_channel g.num_samples = 0 := by
    unfold batch_mean batch_sum
    simp [hz]
  rw [hm, ho]
  rfl

/-- Witness of C1: the default statics (`num_samples = 10`), a sensor with
offset `2048` and an ADC that always converts to `0`. -/
theorem lhe_get_returns_mean_minus_offset_witness :
    lhe_get lhe_statics_default { id := 0, adc_channel := 0, offset := 2048 } (adc_const 0 0 0) =
      some (((batch_mean (adc_const 0 0 0) 0 10 : Nat) : Int) - 2048, adc_after (adc_const 0 0 0) 0 10) :=
  (lhe_get_returns_mean_minus_offset lhe_statics_default
    { id := 0, adc_channel := 0, offset := 2048 } (adc_const 0 0 0)
    (by decide) (by decide) (adc_const_in_range 0 0 0 (by decide))).1

/-- C2: for every sensor and every ADC whose conversions lie in `0..4095`,
`lhe_calibrate` computes the truncating integer mean of the next
`num_calibration_samples` conversions (`1000` by default), stores it as the
sensor's offset whatever the previous offset was, and returns the value it
stored. -/
theorem lhe_calibrate_stores_and_returns_mean (g : lhe_statics) (sensor : lhe_sensor_t)
    (adc : adc_t) (hn : 1 ≤ g.num_calibration_samples)
    (hty : g.num_calibration_samples < 65536) (hr : adc.in_range) :
    lhe_calibrate g sensor adc =
        some ((batch_mean adc sensor.adc_channel g.num_calibration_samples : Int),
          { id := sensor.id, adc_channel := sensor.adc_channel,
            offset := (batch_mean adc sensor.adc_channel g.num_calibration_samples : Int) },
          adc_after adc sensor.adc_channel g.num_calibration_samples) ∧
      (∀ old : Int, lhe_calibrate g { sensor with offset := old } adc =
        lhe_calibrate g sensor adc) ∧
      (∀ r sensor1 adc1, lhe_calibrate g sensor adc = some (r, sensor1, adc1) →
        r = sensor1.offset) ∧
      lhe_statics_default.num_calibration_samples = 1000 := by
  have h := lhe_calibrate_eq g sensor adc hn hty hr
  refine ⟨h, fun old => ?_, fun r sensor1 adc1 he => ?_, rfl⟩
  · rw [h, lhe_calibrate_eq g { sensor with offset := old } adc hn hty hr]
  · rw [h] at he
    cases he
    rfl

/-- Witness of C2: the default statics, a fresh sensor on channel `0` and an
ADC that always converts to `2048`. -/
theorem lhe_calibrate_stores_and_returns_mean_witness :
    lhe_calibrate lhe_statics_default { id := 0, adc_channel := 0, offset := 7 }
        (adc_const 2048 0 0) =
      some (((batch_mean (adc_const 2048 0 0) 0 1000 : Nat) : Int),
        { id := 0, adc_channel := 0,
          offset := ((batch_mean (adc_const 2048 0 0) 0 1000 : Nat) : Int) },
        adc_after (adc_const 2048 0 0) 0 1000) :=
  (lhe_calibrate_stores_and_returns_mean lhe_statics_default
    { id := 0, adc_channel := 0, offset := 7 } (adc_const 2048 0 0)
    (by decide) (by decide) (adc_const_in_range 2048 0 0 (by decide))).1

/-- C3: calibration on an ADC that always converts to the ADC code `V`
(`V ≤ 4095`) sets `offset = V` exactly and returns `V`, for any positive
`num_calibration_samples`. -/
theorem lhe_calibrate_constant_stream (g : lhe_statics) (sensor : lhe_sensor_t)
    (V input pos : Nat) (hV : V ≤ 4095) (hn : 1 ≤ g.num_calibration_samples)
    (hty : g.num_calibration_samples < 65536) :
    lhe_calibrate g sensor (adc_const V input pos) =
      some ((V : Int), { id := sensor.id, adc_channel := sensor.adc_channel, offset := (V : Int) },
        adc_const V sensor.adc_channel (pos + g.num_calibration_samples)) := by
  rw [lhe_calibrate_eq g sensor _ hn hty (adc_const_in_range V input pos hV),
    batch_mean_const V input pos _ _ hn, adc_after_const]

/-- Witness of C3: full-scale code `4095` with the default statics. -/
theorem lhe_calibrate_constant_stream_witness :
    lhe_calibrate lhe_statics_default { id := 0, adc_channel := 0, offset := 0 }
        (adc_const 4095 0 0) =
      some ((4095 : Int), { id := 0, adc_channel := 0, offset := 4095 },
        adc_const 4095 0 (0 + 1000)) :=
  lhe_calibrate_constant_stream lhe_statics_default { id := 0, adc_channel := 0, offset := 0 }
    4095 0 0 (by decide) (by decide) (by decide)

theorem to_int16_zero : to_int16 0 = 0 := by decide

theorem tdiv_of_nonneg (a b : Int) (ha : 0 ≤ a) (hb : 0 ≤ b) : Int.tdiv a b = a / b :=
  Int.tdiv_eq_ediv ha hb

theorem tdiv_of_nonpos (a b : Int) (ha : a ≤ 0) (hb : 0 ≤ b) : Int.tdiv a b = -((-a) / b) := by
  have h : Int.tdiv (-(-a)) b = -(Int.tdiv (-a) b) := Int.neg_tdiv (-a) b
  rw [Int.neg_neg] at h
  rw [h, Int.tdiv_eq_ediv (by omega) hb]

/-- C4: calibrating on an ADC that always converts to `V` (`V ≤ 4095`) and
then reading the same constant stream with `lhe_get` returns exactly `0`, for
every positive smoothing sample count; `lhe_get_voltage` returns `0` as well,
and so does `lhe_get_strength` when the sensitivity is not zero. -/
theorem calibrate_then_get_constant_stream (g : lhe_statics) (sensor : lhe_sensor_t)
    (V input pos : Nat) (hV : V ≤ 4095)
    (hc : 1 ≤ g.num_calibration_samples) (hcty : g.num_calibration_samples < 65536)
    (hn : 1 ≤ g.num_samples) (hty : g.num_samples < 65536) :
    ∃ sensor1 adc1,
      lhe_calibrate g sensor (adc_const V input pos) = some ((V : Int), sensor1, adc1) ∧
      adc1 = adc_const V sensor.adc_channel (pos + g.num_calibration_samples) ∧
      lhe_get g sensor1 adc1 = some (0, adc_after adc1 sensor.adc_channel g.num_samples) ∧
      lhe_get_voltage g sensor1 adc1 =
        some (0, adc_after adc1 sensor.adc_channel g.num_samples) ∧
      (g.sensitivity ≠ 0 → lhe_get_strength g sensor1 adc1 =
        some (0, adc_after adc1 sensor.adc_channel g.num_samples)) ∧
      (∀ input2 pos2, lhe_get g sensor1 (adc_const V input2 pos2) =
        some (0, adc_const V sensor.adc_channel (pos2 + g.num_samples))) := by
  have hcal := lhe_calibrate_eq g sensor _ hc hcty (adc_const_in_range V input pos hV)
  rw [batch_mean_const V input pos _ _ hc, adc_after_const] at hcal
  have hget : ∀ input2 pos2,
      lhe_get g { id := sensor.id, adc_channel := sensor.adc_channel, offset := (V : Int) }
        (adc_const V input2 pos2) =
      some (0, adc_const V sensor.adc_channel (pos2 + g.num_samples)) := by
    intro input2 pos2
    rw [lhe_get_eq g _ _ hn hty (adc_const_in_range V input2 pos2 hV),
      batch_mean_const V input2 pos2 _ _ hn, adc_after_const]
    simp
  have hg := hget sensor.adc_channel (pos + g.num_calibration_samples)
  have hv := lhe_get_voltage_of_get g _ _ _ _ hg
  rw [voltage_of_zero] at hv
  refine ⟨_, _, hcal, rfl, hg, hv, fun hs => ?_, hget⟩
  rw [lhe_get_strength_of_voltage g _ _ _ _ hv hs, Int.zero_tdiv, to_int16_zero]
  rfl

/-- Witness of C4: mid-scale code `2048` with the default statics. -/
theorem calibrate_then_get_constant_stream_witness :
    ∃ sensor1 adc1,
      lhe_calibrate lhe_statics_default { id := 0, adc_channel := 0, offset := 0 }
        (adc_const 2048 0 0) = some ((2048 : Int), sensor1, adc1) ∧
      lhe_get lhe_statics_default sensor1 adc1 = some (0, adc_after adc1 0 10) := by
  obtain ⟨s1, a1, h1, _, h3, _⟩ :=
    calibrate_then_get_constant_stream lhe_statics_default
      { id := 0, adc_channel := 0, offset := 0 } 2048 0 0
      (by decide) (by decide) (by decide) (by decide) (by decide)
  exact ⟨s1, a1, h1, h3⟩

/-! ## Construction -/

theorem lhe_init_channel_eq (pin : Nat) (g : lhe_statics) :
    (lhe_init pin g).1.adc_channel =
      if pin = 28 then 2 else if pin = 27 then 1 else 0 := by
  unfold lhe_init
  dsimp only
  split
  · rfl
  · rfl
  · rename_i h28 h27
    rw [if_neg h28, if_neg h27]

/-- C5: for every 8-bit pin value `g`, `lhe_init g` yields `adc_channel = 2`
if `g = 28`, `1` if `g = 27` and `0` otherwise (so `26` and every unrecognised
pin give channel `0`); the channel is always one of `0`, `1`, `2`; the new
sensor has `offset = 0`; and `lhe_init` is a total function, it always yields a
sensor. -/
theorem lhe_init_channel_and_offset (pin : Nat) (_h8 : pin < 256) (g : lhe_statics) :
    (lhe_init pin g).1.adc_channel = (if pin = 28 then 2 else if pin = 27 then 1 else 0) ∧
      (pin ≠ 28 → pin ≠ 27 → (lhe_init pin g).1.adc_channel = 0) ∧
      (lhe_init 26 g).1.adc_channel = 0 ∧
      ((lhe_init pin g).1.adc_channel = 0 ∨ (lhe_init pin g).1.adc_channel = 1 ∨
        (lhe_init pin g).1.adc_channel = 2) ∧
      (lhe_init pin g).1.offset = 0 := by
  have h := lhe_init_channel_eq pin g
  refine ⟨h, fun h28 h27 => ?_, rfl, ?_, rfl⟩
  · rw [h, if_neg h28, if_neg h27]
  · rw [h]
    split
    · exact Or.inr (Or.inr rfl)
    · split
      · exact Or.inr (Or.inl rfl)
      · exact Or.inl rfl

/-- Witness of C5: pin `28`. -/
theorem lhe_init_channel_and_offset_witness :
    (lhe_init 28 lhe_statics_default).1.adc_channel = 2 ∧
      (lhe_init 28 lhe_statics_default).1.offset = 0 :=
  ⟨(lhe_init_channel_and_offset 28 (by decide) lhe_statics_default).1,
    (lhe_init_channel_and_offset 28 (by decide) lhe_statics_default).2.2.2.2⟩

/-- The identifiers handed out by a run of `lhe_init` calls follow the
`uint8_t` counter: call number `k` gets `(next_id + k) % 256`. -/
theorem lhe_init_seq_ids (pins : List Nat) : ∀ (g : lhe_statics), g.next_id < 256 →
    (lhe_init_seq pins g).1.map (fun s => s.id) =
      (List.range pins.length).map (fun k => (g.next_id + k) % 256) := by
  induction pins with
  | nil => intro g _; rfl
  | cons p ps ih =>
    intro g hg
    have hstep : (lhe_init p g).2.next_id = (g.next_id + 1) % 256 := rfl
    have hid : (lhe_init p g).1.id = g.next_id := rfl
    simp only [lhe_init_seq, List.map_cons, List.length_cons, List.range_succ_eq_map,
      List.map_map]
    rw [ih _ (by rw [hstep]; exact Nat.mod_lt _ (by norm_num)), hid, hstep]
    refine congrArg₂ _ ?_ ?_
    · simp [Nat.mod_eq_of_lt hg]
    · apply List.map_congr_left
      intro k _
      simp only [Function.comp, Nat.succ_eq_add_one]
      omega

/-- C6 (failing input): after 257 calls of `lhe_init` from program start the
`uint8_t` counter has wrapped: the 257th sensor gets identifier `0`, the
identifier of the first sensor, so the identifiers are neither pairwise
distinct nor strictly increasing. -/
theorem lhe_init_seq_id_reused :
    ((lhe_init_seq (List.replicate 257 26) lhe_statics_default).1.map (fun s => s.id)).get? 0
        = some 0 ∧
      ((lhe_init_seq (List.replicate 257 26) lhe_statics_default).1.map (fun s => s.id)).get? 256
        = some 0 ∧
      ((lhe_init_seq (List.replicate 257 26) lhe_statics_default).1.map (fun s => s.id)).get? 255
        = some 255 := by
  rw [lhe_init_seq_ids _ _ (by decide)]
  simp only [List.length_replicate]
  decide

/-! ## Voltage and field strength -/

theorem voltage_of_small (v : Int) (hlo : -39000 ≤ v) (hhi : v ≤ 39000) :
    voltage_of v = (v * 825) >>> (10 : Nat) ∧ voltage_of v = (v * 825) / 1024 := by
  have hpow : ((2 ^ 10 : Nat) : Int) = 1024 := by norm_num
  have hs : (v * 825) >>> (10 : Nat) = (v * 825) / 1024 := by
    rw [Int.shiftRight_eq_div_pow, hpow]
  unfold voltage_of
  rw [hs, to_int16_of_small _ (by omega) (by omega)]
  exact ⟨rfl, rfl⟩

theorem lhe_get_some (g : lhe_statics) (sensor : lhe_sensor_t) (adc : adc_t)
    (hn : g.num_samples ≠ 0) : ∃ v adc1, lhe_get g sensor adc = some (v, adc1) := by
  unfold lhe_get
  dsimp only
  rw [if_neg hn]
  exact ⟨_, _, rfl⟩

theorem tdiv_bounds (a b : Int) (hb : 1 ≤ b) :
    (0 ≤ a → 0 ≤ Int.tdiv a b ∧ Int.tdiv a b ≤ a) ∧
      (a ≤ 0 → a ≤ Int.tdiv a b ∧ Int.tdiv a b ≤ 0) := by
  constructor
  · intro ha
    rw [tdiv_of_nonneg a b ha (by omega)]
    exact ⟨Int.ediv_nonneg ha (by omega), Int.ediv_le_self b ha⟩
  · intro ha
    rw [tdiv_of_nonpos a b ha (by omega)]
    have h1 : 0 ≤ (-a) / b := Int.ediv_nonneg (by omega) (by omega)
    have h2 : (-a) / b ≤ -a := Int.ediv_le_self b (by omega)
    omega

/-- C7: for every calibrated reading `v` in `-4095..4095` the value
`(v * 825) >> 10` that `lhe_get_voltage` returns differs from the truncating
quotient `v * 3300 / 4095` by at most `1`; for `0 ≤ v` it never exceeds that
quotient; at `v = 4095` it is `3299` against `3300`. -/
theorem voltage_approximation_deviation (v : Int) (hlo : -4095 ≤ v) (hhi : v ≤ 4095) :
    voltage_of v = (v * 825) >>> (10 : Nat) ∧
      |voltage_of v - Int.tdiv (v * 3300) 4095| ≤ 1 ∧
      (0 ≤ v → voltage_of v ≤ Int.tdiv (v * 3300) 4095) ∧
      voltage_of 4095 = 3299 ∧ Int.tdiv (4095 * 3300) 4095 = 3300 ∧
      (∀ g sensor adc adc1, lhe_get g sensor adc = some (v, adc1) →
        lhe_get_voltage g sensor adc = some (voltage_of v, adc1)) := by
  obtain ⟨h1, h2⟩ := voltage_of_small v (by omega) (by omega)
  refine ⟨h1, ?_, ?_, by decide, by decide,
    fun g sensor adc adc1 h => lhe_get_voltage_of_get g sensor adc adc1 v h⟩
  · rw [h2, abs_le]
    rcases Int.le_total 0 v with hv | hv
    · rw [tdiv_of_nonneg _ _ (by omega) (by norm_num)]
      omega
    · rw [tdiv_of_nonpos _ _ (by omega) (by norm_num)]
      omega
  · intro hv
    rw [h2, tdiv_of_nonneg _ _ (by omega) (by norm_num)]
    omega

/-- Witness of C7: the full-scale reading `4095`. -/
theorem voltage_approximation_deviation_witness :
    |voltage_of 4095 - Int.tdiv (4095 * 3300) 4095| ≤ 1 ∧
      voltage_of 4095 ≤ Int.tdiv (4095 * 3300) 4095 :=
  ⟨(voltage_approximation_deviation 4095 (by decide) (by decide)).2.1,
    (voltage_approximation_deviation 4095 (by decide) (by decide)).2.2.1 (by decide)⟩

/-- C8: the voltage conversion is monotonic non-decreasing in the calibrated
reading: for readings `a ≤ b` in `-4095..4095` the value `lhe_get_voltage`
computes from `a` is at most the one it computes from `b`, also across the
sign change, where `>>` is the arithmetic shift (`-1` maps to `-1`, `0` to
`0`). -/
theorem voltage_monotone (a b : Int) (hlo : -4095 ≤ a) (hab : a ≤ b) (hhi : b ≤ 4095) :
    voltage_of a ≤ voltage_of b ∧
      voltage_of (-1) = -1 ∧ voltage_of 0 = 0 ∧
      (∀ ga sa adca ra gb sb adcb rb,
        lhe_get ga sa adca = some (a, ra) → lhe_get gb sb adcb = some (b, rb) →
        ∃ va vb, lhe_get_voltage ga sa adca = some (va, ra) ∧
          lhe_get_voltage gb sb adcb = some (vb, rb) ∧ va ≤ vb) := by
  have hmono : voltage_of a ≤ voltage_of b := by
    rw [(voltage_of_small a (by omega) (by omega)).2,
      (voltage_of_small b (by omega) (by omega)).2]
    omega
  refine ⟨hmono, by decide, by decide, ?_⟩
  intro ga sa adca ra gb sb adcb rb ha hb
  exact ⟨_, _, lhe_get_voltage_of_get ga sa adca ra a ha,
    lhe_get_voltage_of_get gb sb adcb rb b hb, hmono⟩

/-- Witness of C8: the readings `-1` and `0`, on either side of the sign
change. -/
theorem voltage_monotone_witness : voltage_of (-1) ≤ voltage_of 0 :=
  (voltage_monotone (-1) 0 (by decide) (by decide) (by decide)).1

/-- C9: for every nonzero sensitivity `s` (and a nonzero smoothing count, so
that the read itself is defined), `lhe_get_strength` returns the value that
`lhe_get_voltage` computes on the same sample batch divided by `s` with
truncation toward zero; a voltage of `0` gives strength `0`; the default
sensitivity is `18`. -/
theorem lhe_get_strength_is_voltage_div_sensitivity (g : lhe_statics)
    (sensor : lhe_sensor_t) (adc : adc_t)
    (hn : g.num_samples ≠ 0) (hs : g.sensitivity ≠ 0) :
    (∃ mv adc1, lhe_get_voltage g sensor adc = some (mv, adc1) ∧
        lhe_get_strength g sensor adc = some (Int.tdiv mv (g.sensitivity : Int), adc1) ∧
        (mv = 0 → lhe_get_strength g sensor adc = some (0, adc1))) ∧
      lhe_statics_default.sensitivity = 18 := by
  obtain ⟨v, adc1, hget⟩ := lhe_get_some g sensor adc hn
  have hv := lhe_get_voltage_of_get g sensor adc adc1 v hget
  have hstr := lhe_get_strength_of_voltage g sensor adc adc1 _ hv hs
  have hr := to_int16_range ((v * 825) >>> (10 : Nat))
  have hb := tdiv_bounds (voltage_of v) (g.sensitivity : Int) (by omega)
  have hfit : to_int16 (Int.tdiv (voltage_of v) (g.sensitivity : Int)) =
      Int.tdiv (voltage_of v) (g.sensitivity : Int) := by
    have hr2 : -32768 ≤ voltage_of v ∧ voltage_of v < 32768 := hr
    rcases Int.le_total 0 (voltage_of v) with h0 | h0
    · have := hb.1 h0
      exact to_int16_of_small _ (by omega) (by omega)
    · have := hb.2 h0
      exact to_int16_of_small _ (by omega) (by omega)
  rw [hfit] at hstr
  refine ⟨⟨voltage_of v, adc1, hv, hstr, fun h0 => ?_⟩, rfl⟩
  rw [hstr, h0, Int.zero_tdiv]

/-- Witness of C9: the default statics (`num_samples = 10`,
`sensitivity = 18`) on a constant stream. -/
theorem lhe_get_strength_is_voltage_div_sensitivity_witness :
    ∃ mv adc1,
      lhe_get_voltage lhe_statics_default { id := 0, adc_channel := 0, offset := 2048 }
        (adc_const 2148 0 0) = some (mv, adc1) ∧
      lhe_get_strength lhe_statics_default { id := 0, adc_channel := 0, offset := 2048 }
        (adc_const 2148 0 0) = some (Int.tdiv mv 18, adc1) := by
  obtain ⟨⟨mv, adc1, h1, h2, _⟩, _⟩ :=
    lhe_get_strength_is_voltage_div_sensitivity lhe_statics_default
      { id := 0, adc_channel := 0, offset := 2048 } (adc_const 2148 0 0)
      (by decide) (by decide)
  exact ⟨mv, adc1, h1, h2⟩

/-- C10 (failing input): once `lhe_set_num_samples 0` has been accepted,
`lhe_get` evaluates `sum / num_samples` with `num_samples = 0`: it performs a
division by zero and yields no defined value, on every sensor and every ADC. -/
theorem lhe_get_zero_samples_divides_by_zero (g : lhe_statics) (sensor : lhe_sensor_t)
    (adc : adc_t) :
    (lhe_set_num_samples 0 g).num_samples = 0 ∧
      lhe_get (lhe_set_num_samples 0 g) sensor adc = none := by
  exact ⟨rfl, rfl⟩

/-! ## End-to-end scenario and the raw read -/

theorem lhe_get_const (g : lhe_statics) (sensor : lhe_sensor_t) (V input pos : Nat)
    (hV : V ≤ 4095) (hn : 1 ≤ g.num_samples) (hty : g.num_samples < 65536) :
    lhe_get g sensor (adc_const V input pos) =
      some ((V : Int) - sensor.offset, adc_const V sensor.adc_channel (pos + g.num_samples)) := by
  rw [lhe_get_eq g sensor _ hn hty (adc_const_in_range V input pos hV),
    batch_mean_const V input pos _ _ hn, adc_after_const]

/-- C11: end-to-end with the default statics (1000 calibration samples, 10
smoothing samples, sensitivity 18): the sensor built by `lhe_init 26` and
calibrated on a constant `2048` stream has offset `2048`; on a constant `2048`
stream `lhe_get`, `lhe_get_voltage` and `lhe_get_strength` all return `0`; on
a constant `2148` stream `lhe_get` returns `100`, `lhe_get_voltage` returns
`(100 * 825) >> 10 = 80` and `lhe_get_strength` returns `80 / 18 = 4`. -/
theorem end_to_end_default_scenario (p q : Nat) :
    (lhe_init 26 lhe_statics_default).2.num_calibration_samples = 1000 ∧
      (lhe_init 26 lhe_statics_default).2.num_samples = 10 ∧
      (lhe_init 26 lhe_statics_default).2.sensitivity = 18 ∧
      lhe_calibrate (lhe_init 26 lhe_statics_default).2 (lhe_init 26 lhe_statics_default).1
          (adc_const 2048 0 0) =
        some (2048, { id := 0, adc_channel := 0, offset := 2048 }, adc_const 2048 0 1000) ∧
      lhe_get (lhe_init 26 lhe_statics_default).2 { id := 0, adc_channel := 0, offset := 2048 }
          (adc_const 2048 0 p) = some (0, adc_const 2048 0 (p + 10)) ∧
      lhe_get_voltage (lhe_init 26 lhe_statics_default).2
          { id := 0, adc_channel := 0, offset := 2048 } (adc_const 2048 0 p) =
        some (0, adc_const 2048 0 (p + 10)) ∧
      lhe_get_strength (lhe_init 26 lhe_statics_default).2
          { id := 0, adc_channel := 0, offset := 2048 } (adc_const 2048 0 p) =
        some (0, adc_const 2048 0 (p + 10)) ∧
      lhe_get (lhe_init 26 lhe_statics_default).2 { id := 0, adc_channel := 0, offset := 2048 }
          (adc_const 2148 0 q) = some (100, adc_const 2148 0 (q + 10)) ∧
      lhe_get_voltage (lhe_init 26 lhe_statics_default).2
          { id := 0, adc_channel := 0, offset := 2048 } (adc_const 2148 0 q) =
        some (80, adc_const 2148 0 (q + 10)) ∧
      lhe_get_strength (lhe_init 26 lhe_statics_default).2
          { id := 0, adc_channel := 0, offset := 2048 } (adc_const 2148 0 q) =
        some (4, adc_const 2148 0 (q + 10)) ∧
      ((100 * 825 : Int) >>> (10 : Nat) = 80 ∧ Int.tdiv 80 18 = 4) := by
  have hcal := lhe_calibrate_eq (lhe_init 26 lhe_statics_default).2
    (lhe_init 26 lhe_statics_default).1 (adc_const 2048 0 0) (by decide) (by decide)
    (adc_const_in_range 2048 0 0 (by decide))
  rw [batch_mean_const 2048 0 0 _ _ (by decide), adc_after_const] at hcal
  have hg0 := lhe_get_const (lhe_init 26 lhe_statics_default).2
    { id := 0, adc_channel := 0, offset := 2048 } 2048 0 p (by decide) (by decide) (by decide)
  have hg1 := lhe_get_const (lhe_init 26 lhe_statics_default).2
    { id := 0, adc_channel := 0, offset := 2048 } 2148 0 q (by decide) (by decide) (by decide)
  have hv0 := lhe_get_voltage_of_get _ _ _ _ _ hg0
  have hv1 := lhe_get_voltage_of_get _ _ _ _ _ hg1
  have hs0 := lhe_get_strength_of_voltage _ _ _ _ _ hv0 (by decide)
  have hs1 := lhe_get_strength_of_voltage _ _ _ _ _ hv1 (by decide)
  exact ⟨rfl, rfl, rfl, hcal, hg0, hv0, hs0, hg1, hv1, hs1, by decide, by decide⟩

theorem lhe_get_raw_eq (sensor : lhe_sensor_t) (adc : adc_t) :
    lhe_get_raw sensor adc =
      (adc.samples sensor.adc_channel adc.pos % 65536, adc_after adc sensor.adc_channel 1) := rfl

/-- C12: for every sensor (any offset) `lhe_get_raw` returns exactly the next
single ADC sample of the sensor's channel, unmodified, and consumes that one
sample; the result does not depend on the offset, and the function reads none
of the statics, so it does not depend on the smoothing count or the
sensitivity either: no averaging and no offset subtraction. -/
theorem lhe_get_raw_returns_next_sample (sensor : lhe_sensor_t) (adc : adc_t)
    (hr : adc.in_range) :
    lhe_get_raw sensor adc =
        (adc.samples sensor.adc_channel adc.pos, adc_after adc sensor.adc_channel 1) ∧
      (∀ old : Int, lhe_get_raw { sensor with offset := old } adc = lhe_get_raw sensor adc) ∧
      (∀ g1 g2 : lhe_statics,
        lhe_exec .get_raw { g := g1, sensor := sensor, adc := adc } =
            some { g := g1, sensor := sensor, adc := adc_after adc sensor.adc_channel 1 } ∧
          (lhe_exec .get_raw { g := g1, sensor := sensor, adc := adc }).map (fun w => w.adc) =
            (lhe_exec .get_raw { g := g2, sensor := sensor, adc := adc }).map (fun w => w.adc)) := by
  have h := hr sensor.adc_channel adc.pos
  refine ⟨?_, fun _ => rfl, fun _ _ => ⟨rfl, rfl⟩⟩
  rw [lhe_get_raw_eq, Nat.mod_eq_of_lt (by omega)]

/-- Witness of C12: a sensor with offset `2048` and a stream whose next sample
is `3000` and whose other samples are `7`: the raw read is `3000`. -/
theorem lhe_get_raw_returns_next_sample_witness :
    lhe_get_raw { id := 0, adc_channel := 0, offset := 2048 }
        { input := 0, pos := 5, samples := fun _ k => if k = 5 then 3000 else 7 } =
      (3000, { input := 0, pos := 5 + 1, samples := fun _ k => if k = 5 then 3000 else 7 }) :=
  (lhe_get_raw_returns_next_sample { id := 0, adc_channel := 0, offset := 2048 }
    { input := 0, pos := 5, samples := fun _ k => if k = 5 then 3000 else 7 }
    (fun _ k => by show (if k = 5 then 3000 else 7) ≤ 4095; split <;> omega)).1

/-! ## Frame of the sensor record -/

theorem lhe_calibrate_frame (g : lhe_statics) (sensor sensor1 : lhe_sensor_t)
    (adc adc1 : adc_t) (r : Int) (h : lhe_calibrate g sensor adc = some (r, sensor1, adc1)) :
    sensor1.id = sensor.id ∧ sensor1.adc_channel = sensor.adc_channel ∧ r = sensor1.offset := by
  unfold lhe_calibrate at h
  dsimp only at h
  split at h
  · cases h
  · simp only [Option.some.injEq, Prod.mk.injEq] at h
    obtain ⟨hr, hs, _⟩ := h
    subst hs
    refine ⟨rfl, rfl, ?_⟩
    dsimp only
    exact hr.symm

theorem lhe_exec_frame (c : lhe_call) (w w1 : lhe_world) (h : lhe_exec c w = some w1) :
    (c.is_init = false → c.is_calibrate = false → w1.sensor = w.sensor) ∧
      (c.is_init = false →
        w1.sensor.id = w.sensor.id ∧ w1.sensor.adc_channel = w.sensor.adc_channel) := by
  cases c with
  | init p => constructor <;> intro h0 <;> cases h0
  | calibrate =>
    refine ⟨fun _ h1 => Bool.noConfusion h1, fun _ => ?_⟩
    simp only [lhe_exec] at h
    split at h
    · cases h
    · rename_i r s1 a1 hc
      cases h
      have hf := lhe_calibrate_frame _ _ _ _ _ _ hc
      exact ⟨hf.1, hf.2.1⟩
  | get =>
    simp only [lhe_exec] at h
    split at h
    · cases h
    · cases h
      exact ⟨fun _ _ => rfl, fun _ => ⟨rfl, rfl⟩⟩
  | get_raw =>
    cases h
    exact ⟨fun _ _ => rfl, fun _ => ⟨rfl, rfl⟩⟩
  | get_voltage =>
    simp only [lhe_exec] at h
    split at h
    · cases h
    · cases h
      exact ⟨fun _ _ => rfl, fun _ => ⟨rfl, rfl⟩⟩
  | get_strength =>
    simp only [lhe_exec] at h
    split at h
    · cases h
    · cases h
      exact ⟨fun _ _ => rfl, fun _ => ⟨rfl, rfl⟩⟩
  | set_sensitivity s =>
    cases h
    exact ⟨fun _ _ => rfl, fun _ => ⟨rfl, rfl⟩⟩
  | set_num_samples n =>
    cases h
    exact ⟨fun _ _ => rfl, fun _ => ⟨rfl, rfl⟩⟩

theorem lhe_run_frame (calls : List lhe_call) : ∀ (w w1 : lhe_world),
    (∀ c ∈ calls, c.is_init = false) → lhe_run calls w = some w1 →
    w1.sensor.id = w.sensor.id ∧ w1.sensor.adc_channel = w.sensor.adc_channel ∧
      ((∀ c ∈ calls, c.is_calibrate = false) → w1.sensor = w.sensor) := by
  induction calls with
  | nil =>
    intro w w1 _ h
    cases h
    exact ⟨rfl, rfl, fun _ => rfl⟩
  | cons c cs ih =>
    intro w w1 hall h
    unfold lhe_run at h
    split at h
    · cases h
    · rename_i w2 hc
      have hstep := lhe_exec_frame c w w2 hc
      have hrest := ih w2 w1 (fun c1 hc1 => hall c1 (List.mem_cons_of_mem _ hc1)) h
      have hci := hall c (List.mem_cons_self _ _)
      refine ⟨hrest.1.trans (hstep.2 hci).1, hrest.2.1.trans (hstep.2 hci).2, fun hcal => ?_⟩
      rw [hrest.2.2 (fun c1 hc1 => hcal c1 (List.mem_cons_of_mem _ hc1)),
        hstep.1 hci (hcal c (List.mem_cons_self _ _))]

/-- C13: the sensor record is framed.  A call of `lhe_get`, `lhe_get_raw`,
`lhe_get_voltage`, `lhe_get_strength`, `lhe_set_sensitivity` or
`lhe_set_num_samples` leaves `id`, `adc_channel` and `offset` unchanged;
`lhe_calibrate` leaves `id` and `adc_channel` unchanged and writes only
`offset`; so over any sequence of calls on the sensor `adc_channel` (and `id`)
never changes after construction, and `offset` changes only by a
calibration. -/
theorem sensor_state_is_framed (c : lhe_call) (w w1 : lhe_world)
    (hc : c.is_init = false) (h : lhe_exec c w = some w1) :
    (c.is_calibrate = false → w1.sensor = w.sensor) ∧
      w1.sensor.id = w.sensor.id ∧ w1.sensor.adc_channel = w.sensor.adc_channel ∧
      (∀ calls wa wb, (∀ c1 ∈ calls, lhe_call.is_init c1 = false) →
        lhe_run calls wa = some wb →
        wb.sensor.id = wa.sensor.id ∧ wb.sensor.adc_channel = wa.sensor.adc_channel ∧
          ((∀ c1 ∈ calls, lhe_call.is_calibrate c1 = false) → wb.sensor = wa.sensor)) ∧
      (∀ g sensor adc r sensor1 adc1, lhe_calibrate g sensor adc = some (r, sensor1, adc1) →
        sensor1.id = sensor.id ∧ sensor1.adc_channel = sensor.adc_channel) := by
  have hf := lhe_exec_frame c w w1 h
  refine ⟨hf.1 hc, (hf.2 hc).1, (hf.2 hc).2, fun calls wa wb hall hrun => ?_,
    fun g sensor adc r sensor1 adc1 hcal => ?_⟩
  · exact lhe_run_frame calls wa wb hall hrun
  · have := lhe_calibrate_frame g sensor sensor1 adc adc1 r hcal
    exact ⟨this.1, this.2.1⟩

/-- Witness of C13: a calibration with the default statics on a constant
`2048` stream, on a sensor with `id = 3` on channel `1`. -/
theorem sensor_state_is_framed_witness :
    ({ g := lhe_statics_default, sensor := { id := 3, adc_channel := 1, offset := 2048 },
       adc := adc_const 2048 1 1000 } : lhe_world).sensor.id = 3 ∧
    ({ g := lhe_statics_default, sensor := { id := 3, adc_channel := 1, offset := 2048 },
       adc := adc_const 2048 1 1000 } : lhe_world).sensor.adc_channel = 1 :=
  ⟨(sensor_state_is_framed .calibrate
      { g := lhe_statics_default, sensor := { id := 3, adc_channel := 1, offset := 0 },
        adc := adc_const 2048 0 0 }
      { g := lhe_statics_default, sensor := { id := 3, adc_channel := 1, offset := 2048 },
        adc := adc_const 2048 1 1000 } rfl
      (by
        simp only [lhe_exec]
        rw [lhe_calibrate_eq lhe_statics_default _ _ (by decide) (by decide)
          (adc_const_in_range 2048 0 0 (by decide)),
          batch_mean_const 2048 0 0 _ _ (by decide), adc_after_const]
        rfl)).2.1,
    (sensor_state_is_framed .get_raw
      { g := lhe_statics_default, sensor := { id := 3, adc_channel := 1, offset := 2048 },
        adc := adc_const 2048 1 999 }
      { g := lhe_statics_default, sensor := { id := 3, adc_channel := 1, offset := 2048 },
        adc := adc_const 2048 1 1000 } rfl rfl).2.2.1⟩

/-! ## The calibration sample count -/

theorem adc_after_eq (adc : adc_t) (c n : Nat) :
    ({ adc_select_input c adc with pos := (adc_select_input c adc).pos + n } : adc_t) =
      adc_after adc c n := rfl

theorem lhe_calibrate_consumes (g : lhe_statics) (sensor : lhe_sensor_t) (adc : adc_t)
    (hn : g.num_calibration_samples ≠ 0) :
    ∃ r sensor1, lhe_calibrate g sensor adc =
      some (r, sensor1, adc_after adc sensor.adc_channel g.num_calibration_samples) := by
  unfold lhe_calibrate
  dsimp only
  rw [if_neg hn, sample_loop_snd, adc_after_eq]
  exact ⟨_, _, rfl⟩

theorem lhe_get_consumes (g : lhe_statics) (sensor : lhe_sensor_t) (adc : adc_t)
    (hn : g.num_samples ≠ 0) :
    ∃ v, lhe_get g sensor adc = some (v, adc_after adc sensor.adc_channel g.num_samples) := by
  unfold lhe_get
  dsimp only
  rw [if_neg hn, sample_loop_snd, adc_after_eq]
  exact ⟨_, rfl⟩

theorem lhe_exec_keeps_calibration_count (c : lhe_call) (w w1 : lhe_world)
    (h : lhe_exec c w = some w1) :
    w1.g.num_calibration_samples = w.g.num_calibration_samples := by
  cases c with
  | init p => cases h; rfl
  | calibrate =>
    simp only [lhe_exec] at h
    split at h
    · cases h
    · simp only [Option.some.injEq] at h
      subst h
      rfl
  | get =>
    simp only [lhe_exec] at h
    split at h
    · cases h
    · simp only [Option.some.injEq] at h
      subst h
      rfl
  | get_raw => cases h; rfl
  | get_voltage =>
    simp only [lhe_exec] at h
    split at h
    · cases h
    · simp only [Option.some.injEq] at h
      subst h
      rfl
  | get_strength =>
    simp only [lhe_exec] at h
    split at h
    · cases h
    · simp only [Option.some.injEq] at h
      subst h
      rfl
  | set_sensitivity s => cases h; rfl
  | set_num_samples n => cases h; rfl

theorem lhe_run_keeps_calibration_count (calls : List lhe_call) : ∀ (w w1 : lhe_world),
    lhe_run calls w = some w1 →
    w1.g.num_calibration_samples = w.g.num_calibration_samples := by
  induction calls with
  | nil =>
    intro w w1 h
    cases h
    rfl
  | cons c cs ih =>
    intro w w1 h
    unfold lhe_run at h
    split at h
    · cases h
    · rename_i w2 hc
      rw [ih w2 w1 h, lhe_exec_keeps_calibration_count c w w2 hc]

/-- C14 (failing input): no call of the public interface writes
`num_calibration_samples`.  From program start, after every sequence of public
calls that completes, the count is still `1000` and `lhe_calibrate` consumes
exactly `1000` samples: the calibration sample count is not configurable, no
sequence of calls makes it `2000`. -/
theorem calibration_count_is_never_changed (calls : List lhe_call) (w w1 : lhe_world)
    (h0 : w.g = lhe_statics_default) (h : lhe_run calls w = some w1) :
    w1.g.num_calibration_samples = 1000 ∧
      ∃ r sensor1, lhe_calibrate w1.g w1.sensor w1.adc =
        some (r, sensor1, adc_after w1.adc w1.sensor.adc_channel 1000) := by
  have hk := lhe_run_keeps_calibration_count calls w w1 h
  rw [h0] at hk
  have h1000 : w1.g.num_calibration_samples = 1000 := hk
  refine ⟨h1000, ?_⟩
  have hc := lhe_calibrate_consumes w1.g w1.sensor w1.adc (by omega)
  rw [h1000] at hc
  exact hc

/-- Witness of C14: both setters called with `2000` from program start. -/
theorem calibration_count_is_never_changed_witness :
    ({ g := { num_samples := 2000, num_calibration_samples := 1000, sensitivity := 2000,
              next_id := 0 },
       sensor := { id := 0, adc_channel := 0, offset := 0 },
       adc := adc_const 2048 0 0 } : lhe_world).g.num_calibration_samples = 1000 :=
  (calibration_count_is_never_changed [.set_num_samples 2000, .set_sensitivity 2000]
    { g := lhe_statics_default, sensor := { id := 0, adc_channel := 0, offset := 0 },
      adc := adc_const 2048 0 0 }
    { g := { num_samples := 2000, num_calibration_samples := 1000, sensitivity := 2000,
             next_id := 0 },
      sensor := { id := 0, adc_channel := 0, offset := 0 },
      adc := adc_const 2048 0 0 } rfl rfl).1

/-! ## Exactness of the quick voltage calculation -/

theorem voltage_of_full_scale : voltage_of 4095 = 3299 := by decide

theorem exact_full_scale : Int.tdiv (4095 * 3300) 4095 = 3300 := by decide

theorem voltage_of_eq_div_4096 (v : Int) (hlo : -39000 ≤ v) (hhi : v ≤ 39000) :
    voltage_of v = (v * 3300) / 4096 := by
  rw [(voltage_of_small v hlo hhi).2]
  omega

theorem voltage_equal_or_one_below_quotient (v : Int) (hlo : -4095 ≤ v) (hhi : v ≤ 4095) :
    voltage_of v = Int.tdiv (v * 3300) 4095 ∨
      voltage_of v = Int.tdiv (v * 3300) 4095 - 1 := by
  obtain ⟨_, h2⟩ := voltage_of_small v (by omega) (by omega)
  rw [h2]
  rcases Int.le_total 0 v with hv | hv
  · rw [tdiv_of_nonneg _ _ (by omega) (by norm_num)]
    omega
  · rw [tdiv_of_nonpos _ _ (by omega) (by norm_num)]
    omega

/-- C15 (failing input): at the full-scale reading `4095`, which `lhe_get`
returns on a constant `4095` stream with offset `0`, `lhe_get_voltage` returns
`(4095 * 825) >> 10 = 3299` while the integer quotient `4095 * 3300 / 4095` of
the comment is `3300`: the quick calculation is the quotient by `4096`, not by
`4095`, and is not equal to `adc_value * 3300 / 4095`. -/
theorem voltage_not_equal_to_quotient_at_full_scale :
    lhe_get lhe_statics_default { id := 0, adc_channel := 0, offset := 0 } (adc_const 4095 0 0) =
        some (4095, adc_const 4095 0 10) ∧
      lhe_get_voltage lhe_statics_default { id := 0, adc_channel := 0, offset := 0 }
          (adc_const 4095 0 0) = some (3299, adc_const 4095 0 10) ∧
      (4095 * 825 : Int) >>> (10 : Nat) = 3299 ∧
      Int.tdiv (4095 * 3300) 4095 = 3300 ∧
      voltage_of 4095 ≠ Int.tdiv (4095 * 3300) 4095 ∧
      voltage_of 4095 = (4095 * 3300) / 4096 := by
  have hg := lhe_get_const lhe_statics_default { id := 0, adc_channel := 0, offset := 0 }
    4095 0 0 (by decide) (by decide) (by decide)
  have hv := lhe_get_voltage_of_get _ _ _ _ _ hg
  exact ⟨hg, hv, by decide, by decide, by decide, by decide⟩

/-! ## Relative error at full scale -/

theorem rel_error_full_scale :
    rel_error_percent (Int.tdiv (4095 * 3300) 4095) (voltage_of 4095) = 1 / 33 := by
  rw [voltage_of_full_scale, exact_full_scale]
  unfold rel_error_percent
  norm_num

theorem round2_rel_error_full_scale :
    round2 (rel_error_percent (Int.tdiv (4095 * 3300) 4095) (voltage_of 4095)) = 3 / 100 := by
  rw [rel_error_full_scale]
  unfold round2
  have hfloor : ⌊(1 / 33 : ℚ) * 100 + 1 / 2⌋ = 3 := by
    rw [Int.floor_eq_iff]
    constructor <;> norm_num
  rw [hfloor]
  norm_num

/-- C16 (counterexample): at full scale the relative error of
`(4095 * 825) >> 10 = 3299` against the exact `3300`, rounded to two decimal
places of a percent, is not `0.18`. -/
theorem full_scale_rel_error_is_not_0_18 :
    round2 (rel_error_percent (Int.tdiv (4095 * 3300) 4095) (voltage_of 4095)) ≠ 18 / 100 := by
  rw [round2_rel_error_full_scale]
  norm_num

/-- C16 (amended): at full scale (calibrated reading `4095`) the approximation
`(4095 * 825) >> 10` is `3299` against the exact scaling
`4095 * 3300 / 4095 = 3300`; the relative error `|exact - approx| / exact` is
`1 / 3300`, that is `1 / 33` percent, which is `0.03` percent when rounded to
two decimal places of a percent. -/
theorem full_scale_rel_error_is_0_03 :
    voltage_of 4095 = 3299 ∧ Int.tdiv (4095 * 3300) 4095 = 3300 ∧
      rel_error_percent (Int.tdiv (4095 * 3300) 4095) (voltage_of 4095) = 1 / 33 ∧
      round2 (rel_error_percent (Int.tdiv (4095 * 3300) 4095) (voltage_of 4095)) = 3 / 100 :=
  ⟨voltage_of_full_scale, exact_full_scale, rel_error_full_scale, round2_rel_error_full_scale⟩

/-! ## Sample consumption and the setters -/

theorem lhe_exec_keeps_statics (c : lhe_call) (w w1 : lhe_world)
    (hi : c.is_init = false) (hs : c.is_setter = false) (h : lhe_exec c w = some w1) :
    w1.g = w.g := by
  cases c with
  | init p => cases hi
  | calibrate =>
    simp only [lhe_exec] at h
    split at h
    · cases h
    · simp only [Option.some.injEq] at h
      subst h
      rfl
  | get =>
    simp only [lhe_exec] at h
    split at h
    · cases h
    · simp only [Option.some.injEq] at h
      subst h
      rfl
  | get_raw => cases h; rfl
  | get_voltage =>
    simp only [lhe_exec] at h
    split at h
    · cases h
    · simp only [Option.some.injEq] at h
      subst h
      rfl
  | get_strength =>
    simp only [lhe_exec] at h
    split at h
    · cases h
    · simp only [Option.some.injEq] at h
      subst h
      rfl
  | set_sensitivity s => cases hs
  | set_num_samples n => cases hs

theorem strength_fits (mv : Int) (s : Nat) (hs : s ≠ 0) :
    to_int16 (Int.tdiv (voltage_of mv) (s : Int)) = Int.tdiv (voltage_of mv) (s : Int) := by
  have hr : -32768 ≤ voltage_of mv ∧ voltage_of mv < 32768 :=
    to_int16_range ((mv * 825) >>> (10 : Nat))
  have hb := tdiv_bounds (voltage_of mv) (s : Int) (by omega)
  rcases Int.le_total 0 (voltage_of mv) with h0 | h0
  · have := hb.1 h0
    exact to_int16_of_small _ (by omega) (by omega)
  · have := hb.2 h0
    exact to_int16_of_small _ (by omega) (by omega)

/-- C17: after `lhe_set_num_samples n` and `lhe_set_sensitivity s` with
`1 ≤ n` and `s ≠ 0`, a call of `lhe_get`, `lhe_get_voltage` or
`lhe_get_strength` consumes exactly `n` samples (one batch, also for
`lhe_get_strength`) and `lhe_get_strength` divides by `s`; `lhe_get_raw`
consumes exactly `1` sample and `lhe_calibrate` exactly
`num_calibration_samples`; the readers leave the statics as the setters made
them; the setters leave the ADC untouched and overwrite only their own
static. -/
theorem sample_consumption_and_setter_effect (g : lhe_statics) (sensor : lhe_sensor_t)
    (adc : adc_t) (n s : Nat) (hn : 1 ≤ n) (hs : s ≠ 0) :
    (∃ v, lhe_get (lhe_set_sensitivity s (lhe_set_num_samples n g)) sensor adc =
          some (v, adc_after adc sensor.adc_channel n) ∧
        lhe_get_voltage (lhe_set_sensitivity s (lhe_set_num_samples n g)) sensor adc =
          some (voltage_of v, adc_after adc sensor.adc_channel n) ∧
        lhe_get_strength (lhe_set_sensitivity s (lhe_set_num_samples n g)) sensor adc =
          some (Int.tdiv (voltage_of v) (s : Int), adc_after adc sensor.adc_channel n)) ∧
      ((adc_after adc sensor.adc_channel n).pos = adc.pos + n ∧
        (adc_after adc sensor.adc_channel n).samples = adc.samples) ∧
      (lhe_get_raw sensor adc).2 = adc_after adc sensor.adc_channel 1 ∧
      (g.num_calibration_samples ≠ 0 →
        ∃ r sensor1, lhe_calibrate (lhe_set_sensitivity s (lhe_set_num_samples n g)) sensor adc =
          some (r, sensor1, adc_after adc sensor.adc_channel g.num_calibration_samples)) ∧
      (∀ c w w1, lhe_call.is_init c = false → lhe_call.is_setter c = false →
        lhe_exec c w = some w1 → w1.g = w.g) ∧
      (lhe_exec (.set_num_samples n) { g := g, sensor := sensor, adc := adc } =
          some { g := { g with num_samples := n }, sensor := sensor, adc := adc } ∧
        lhe_exec (.set_sensitivity s) { g := g, sensor := sensor, adc := adc } =
          some { g := { g with sensitivity := s }, sensor := sensor, adc := adc }) := by
  have hne : (lhe_set_sensitivity s (lhe_set_num_samples n g)).num_samples ≠ 0 := by
    show n ≠ 0
    omega
  have hse : (lhe_set_sensitivity s (lhe_set_num_samples n g)).sensitivity ≠ 0 := hs
  obtain ⟨v, hget⟩ := lhe_get_consumes _ sensor adc hne
  have hv := lhe_get_voltage_of_get _ _ _ _ _ hget
  have hstr := lhe_get_strength_of_voltage _ _ _ _ _ hv hse
  have hfit : to_int16 (Int.tdiv (voltage_of v) (s : Int)) = Int.tdiv (voltage_of v) (s : Int) :=
    strength_fits v s hs
  refine ⟨⟨v, hget, hv, ?_⟩, ⟨rfl, rfl⟩, rfl, fun hc => ?_,
    fun c w w1 hi hst h => lhe_exec_keeps_statics c w w1 hi hst h, rfl, rfl⟩
  · rw [hstr]
    show some (to_int16 (Int.tdiv (voltage_of v) (s : Int)), _) = _
    rw [hfit]
    rfl
  · exact lhe_calibrate_consumes (lhe_set_sensitivity s (lhe_set_num_samples n g)) sensor adc hc

/-- Witness of C17: `n = 20` and `s = 14`, the values of the example program,
set on the default statics. -/
theorem sample_consumption_and_setter_effect_witness :
    ∃ v, lhe_get (lhe_set_sensitivity 14 (lhe_set_num_samples 20 lhe_statics_default))
        { id := 0, adc_channel := 0, offset := 2048 } (adc_const 2148 0 0) =
      some (v, adc_after (adc_const 2148 0 0) 0 20) := by
  obtain ⟨⟨v, h, _⟩, _⟩ := sample_consumption_and_setter_effect lhe_statics_default
    { id := 0, adc_channel := 0, offset := 2048 } (adc_const 2148 0 0) 20 14
    (by decide) (by decide)
  exact ⟨v, h⟩

/-! ## Division by zero -/

theorem lhe_get_none_iff (g : lhe_statics) (sensor : lhe_sensor_t) (adc : adc_t) :
    lhe_get g sensor adc = none ↔ g.num_samples = 0 := by
  constructor
  · intro h
    by_contra hn
    obtain ⟨v, adc1, hv⟩ := lhe_get_some g sensor adc hn
    rw [hv] at h
    cases h
  · intro h
    unfold lhe_get
    dsimp only
    rw [if_pos h]

theorem lhe_get_voltage_none_iff (g : lhe_statics) (sensor : lhe_sensor_t) (adc : adc_t) :
    lhe_get_voltage g sensor adc = none ↔ g.num_samples = 0 := by
  rw [← lhe_get_none_iff g sensor adc]
  unfold lhe_get_voltage
  split
  · rename_i h
    simp [h]
  · rename_i v adc1 h
    simp [h]

theorem lhe_get_strength_none_iff (g : lhe_statics) (sensor : lhe_sensor_t) (adc : adc_t) :
    lhe_get_strength g sensor adc = none ↔ g.num_samples = 0 ∨ g.sensitivity = 0 := by
  rw [← lhe_get_voltage_none_iff g sensor adc]
  unfold lhe_get_strength
  split
  · rename_i h
    simp [h]
  · rename_i v adc1 h
    by_cases hs : g.sensitivity = 0
    · simp [h, hs]
    · simp [h, hs]

theorem lhe_calibrate_none_iff (g : lhe_statics) (sensor : lhe_sensor_t) (adc : adc_t) :
    lhe_calibrate g sensor adc = none ↔ g.num_calibration_samples = 0 := by
  constructor
  · intro h
    by_contra hn
    obtain ⟨r, s1, hc⟩ := lhe_calibrate_consumes g sensor adc hn
    rw [hc] at h
    cases h
  · intro h
    unfold lhe_calibrate
    dsimp only
    rw [if_pos h]

/-- C18: division by zero happens exactly at zero tunables.  `lhe_get` and
`lhe_get_voltage` divide by zero if and only if `num_samples = 0`;
`lhe_get_strength` if and only if `num_samples = 0` or `sensitivity = 0`;
`lhe_init`, `lhe_get_raw` and the setters never do; `lhe_calibrate` does only
for `num_calibration_samples = 0`, and since that count stays at `1000` it
never does in a state reached from program start through the public
interface.  Both zero tunables are reached by one setter call. -/
theorem division_by_zero_exactly_at_zero_tunables (g : lhe_statics) (sensor : lhe_sensor_t)
    (adc : adc_t) :
    (lhe_get g sensor adc = none ↔ g.num_samples = 0) ∧
      (lhe_get_voltage g sensor adc = none ↔ g.num_samples = 0) ∧
      (lhe_get_strength g sensor adc = none ↔ g.num_samples = 0 ∨ g.sensitivity = 0) ∧
      (lhe_calibrate g sensor adc = none ↔ g.num_calibration_samples = 0) ∧
      (∀ p n s, (lhe_exec (.init p) { g := g, sensor := sensor, adc := adc }).isSome = true ∧
        (lhe_exec .get_raw { g := g, sensor := sensor, adc := adc }).isSome = true ∧
        (lhe_exec (.set_num_samples n) { g := g, sensor := sensor, adc := adc }).isSome = true ∧
        (lhe_exec (.set_sensitivity s) { g := g, sensor := sensor, adc := adc }).isSome = true) ∧
      (∀ calls w w1, w.g = lhe_statics_default → lhe_run calls w = some w1 →
        w1.g.num_calibration_samples = 1000 ∧
          lhe_calibrate w1.g w1.sensor w1.adc ≠ none ∧
          (lhe_exec .calibrate w1).isSome = true) ∧
      (lhe_get (lhe_set_num_samples 0 g) sensor adc = none ∧
        lhe_get_voltage (lhe_set_num_samples 0 g) sensor adc = none ∧
        lhe_get_strength (lhe_set_num_samples 0 g) sensor adc = none ∧
        lhe_get_strength (lhe_set_sensitivity 0 g) sensor adc = none) := by
  refine ⟨lhe_get_none_iff g sensor adc, lhe_get_voltage_none_iff g sensor adc,
    lhe_get_strength_none_iff g sensor adc, lhe_calibrate_none_iff g sensor adc,
    fun p n s => ⟨rfl, rfl, rfl, rfl⟩, fun calls w w1 h0 hrun => ?_, ?_⟩
  · have hk := lhe_run_keeps_calibration_count calls w w1 hrun
    rw [h0] at hk
    have h1000 : w1.g.num_calibration_samples = 1000 := hk
    have hne : lhe_calibrate w1.g w1.sensor w1.adc ≠ none := by
      intro hnone
      have := (lhe_calibrate_none_iff w1.g w1.sensor w1.adc).1 hnone
      omega
    refine ⟨h1000, hne, ?_⟩
    simp only [lhe_exec]
    split
    · rename_i hnone
      exact absurd hnone hne
    · rfl
  · exact ⟨(lhe_get_none_iff _ sensor adc).2 rfl, (lhe_get_voltage_none_iff _ sensor adc).2 rfl,
      (lhe_get_strength_none_iff _ sensor adc).2 (Or.inl rfl),
      (lhe_get_strength_none_iff _ sensor adc).2 (Or.inr rfl)⟩

/-! ## The accumulator and the narrowing conversions -/

theorem read_sum_eq_batch_sum_u16 (adc : adc_t) (h : ∀ c k, adc.samples c k ≤ 65535)
    (c n : Nat) : read_sum adc c n = batch_sum adc c n := by
  unfold read_sum batch_sum
  refine Finset.sum_congr rfl (fun i _ => Nat.mod_eq_of_lt ?_)
  have := h c (adc.pos + i)
  omega

theorem batch_sum_bounds (adc : adc_t) (c n lo hi : Nat)
    (h : ∀ i, i < n → lo ≤ adc.samples c (adc.pos + i) ∧ adc.samples c (adc.pos + i) ≤ hi) :
    lo * n ≤ batch_sum adc c n ∧ batch_sum adc c n ≤ hi * n := by
  unfold batch_sum
  induction n with
  | zero => simp
  | succ n ih =>
    rw [Finset.sum_range_succ]
    have h1 := ih (fun i hi1 => h i (by omega))
    have h2 := h n (by omega)
    rw [Nat.mul_succ, Nat.mul_succ]
    omega

theorem batch_mean_bounds (adc : adc_t) (c n lo hi : Nat) (hn : 1 ≤ n)
    (h : ∀ i, i < n → lo ≤ adc.samples c (adc.pos + i) ∧ adc.samples c (adc.pos + i) ≤ hi) :
    lo ≤ batch_mean adc c n ∧ batch_mean adc c n ≤ hi := by
  have hb := batch_sum_bounds adc c n lo hi h
  unfold batch_mean
  constructor
  · exact (Nat.le_div_iff_mul_le (by omega)).2 hb.1
  · exact Nat.div_le_of_le_mul (by rw [Nat.mul_comm]; exact hb.2)

theorem batch_sum_lt_u32 (adc : adc_t) (h : ∀ c k, adc.samples c k ≤ 65535) (c k : Nat)
    (hk : k ≤ 65535) : batch_sum adc c k < 4294967296 := by
  have hb := (batch_sum_bounds adc c k 0 65535 (fun i _ => ⟨Nat.zero_le _, h c _⟩)).2
  have : 65535 * k ≤ 65535 * 65535 := Nat.mul_le_mul_left _ hk
  omega

/-- C19: the `uint32_t` accumulator of `lhe_calibrate` and `lhe_get` never
wraps.  For every sample count `n` in `1..65535` and samples each at most
`65535`, after every number `k ≤ n` of iterations the accumulator holds the
mathematical sum of the samples read so far, which is below `2^32`; so the
mean the two functions compute is the floor of `sum / n`, and it lies between
any lower and upper bound of the samples of the batch, in particular between
their minimum and maximum. -/
theorem accumulator_never_wraps (adc : adc_t) (c n : Nat) (hn1 : 1 ≤ n) (hn : n ≤ 65535)
    (hs : ∀ c k, adc.samples c k ≤ 65535) :
    (∀ k, k ≤ n →
        (sample_loop k 0 (adc_select_input c adc)).1 = batch_sum adc c k ∧
          batch_sum adc c k < 4294967296) ∧
      (sample_loop n 0 (adc_select_input c adc)).1 / n = batch_mean adc c n ∧
      batch_mean adc c n = batch_sum adc c n / n ∧
      (∀ lo hi,
        (∀ i, i < n → lo ≤ adc.samples c (adc.pos + i) ∧ adc.samples c (adc.pos + i) ≤ hi) →
        lo ≤ batch_mean adc c n ∧ batch_mean adc c n ≤ hi) ∧
      (∀ g sensor, g.num_samples = n → sensor.adc_channel = c →
        lhe_get g sensor adc =
          some ((batch_mean adc c n : Int) - sensor.offset, adc_after adc c n)) ∧
      (∀ g sensor, g.num_calibration_samples = n → sensor.adc_channel = c →
        lhe_calibrate g sensor adc =
          some (to_int16 (batch_mean adc c n : Int),
            { id := sensor.id, adc_channel := c,
              offset := to_int16 (batch_mean adc c n : Int) },
            adc_after adc c n)) := by
  have hloop : ∀ k, k ≤ n → sample_loop k 0 (adc_select_input c adc) =
      (batch_sum adc c k, adc_after adc c k) := by
    intro k hk
    rw [sample_loop_zero k (by omega) c adc, read_sum_eq_batch_sum_u16 adc hs]
  have hmean : batch_mean adc c n ≤ 65535 :=
    (batch_mean_bounds adc c n 0 65535 hn1 (fun i _ => ⟨Nat.zero_le _, hs c _⟩)).2
  refine ⟨fun k hk => ⟨by rw [hloop k hk], batch_sum_lt_u32 adc hs c k (by omega)⟩,
    by rw [hloop n (Nat.le_refl n)]; rfl, rfl,
    fun lo hi h => batch_mean_bounds adc c n lo hi hn1 h, ?_, ?_⟩
  · intro g sensor hg hc
    have hne : g.num_samples ≠ 0 := by omega
    unfold lhe_get
    dsimp only
    rw [hc, hg, hloop n (Nat.le_refl n), if_neg (by omega)]
    dsimp only
    show some (((batch_mean adc c n % 65536 : Nat) : Int) - sensor.offset, _) = _
    rw [Nat.mod_eq_of_lt (by omega)]
  · intro g sensor hg hc
    unfold lhe_calibrate
    dsimp only
    rw [hc, hg, hloop n (Nat.le_refl n), if_neg (by omega)]
    rfl

/-- Witness of C19: the extreme batch, `65535` samples that are all `65535`,
the largest `uint16_t`. -/
theorem accumulator_never_wraps_witness :
    (sample_loop 65535 0 (adc_select_input 0 (adc_const 65535 0 0))).1 =
        batch_sum (adc_const 65535 0 0) 0 65535 ∧
      batch_sum (adc_const 65535 0 0) 0 65535 < 4294967296 :=
  (accumulator_never_wraps (adc_const 65535 0 0) 0 65535 (by decide) (by decide)
    (fun _ _ => Nat.le_refl 65535)).1 65535 (Nat.le_refl 65535)

theorem voltage_of_adc_range (v : Int) (hlo : -4095 ≤ v) (hhi : v ≤ 4095) :
    -3300 ≤ (v * 825) >>> (10 : Nat) ∧ (v * 825) >>> (10 : Nat) ≤ 3299 ∧
      voltage_of v = (v * 825) >>> (10 : Nat) := by
  obtain ⟨h1, h2⟩ := voltage_of_small v (by omega) (by omega)
  have h3 : (v * 825) >>> (10 : Nat) = (v * 825) / 1024 := h1.symm.trans h2
  rw [h3]
  exact ⟨by omega, by omega, h2⟩

/-- C20: no narrowing conversion loses information under the ADC range
assumption.  If every sample is in `0..4095`, the offset is in `0..4095` (as
`lhe_init` and `lhe_calibrate` produce it), `1 ≤ num_samples` and
`1 ≤ sensitivity`, then `lhe_get` returns a value in `-4095..4095`,
`lhe_get_voltage` a value in `-3300..3299` and `lhe_get_strength` a value in
`-3300..3299`, and the `(uint16_t)` conversion of the mean in `lhe_get`, the
`int16_t` conversions of the results of `lhe_get_voltage` and
`lhe_get_strength` and the `(int16_t)` conversion of the mean in
`lhe_calibrate` all return their argument unchanged. -/
theorem narrowing_casts_preserve_value (g : lhe_statics) (sensor : lhe_sensor_t) (adc : adc_t)
    (hr : adc.in_range) (ho0 : 0 ≤ sensor.offset) (ho1 : sensor.offset ≤ 4095)
    (hn : 1 ≤ g.num_samples) (hty : g.num_samples < 65536) (hs : 1 ≤ g.sensitivity) :
    (∃ v adc1,
        lhe_get g sensor adc = some (v, adc1) ∧ -4095 ≤ v ∧ v ≤ 4095 ∧
        to_uint16 ((sample_loop g.num_samples 0 (adc_select_input sensor.adc_channel adc)).1 /
            g.num_samples) =
          (sample_loop g.num_samples 0 (adc_select_input sensor.adc_channel adc)).1 /
            g.num_samples ∧
        lhe_get_voltage g sensor adc = some ((v * 825) >>> (10 : Nat), adc1) ∧
        -3300 ≤ (v * 825) >>> (10 : Nat) ∧ (v * 825) >>> (10 : Nat) ≤ 3299 ∧
        to_int16 ((v * 825) >>> (10 : Nat)) = (v * 825) >>> (10 : Nat) ∧
        lhe_get_strength g sensor adc =
          some (Int.tdiv ((v * 825) >>> (10 : Nat)) (g.sensitivity : Int), adc1) ∧
        -3300 ≤ Int.tdiv ((v * 825) >>> (10 : Nat)) (g.sensitivity : Int) ∧
        Int.tdiv ((v * 825) >>> (10 : Nat)) (g.sensitivity : Int) ≤ 3299 ∧
        to_int16 (Int.tdiv ((v * 825) >>> (10 : Nat)) (g.sensitivity : Int)) =
          Int.tdiv ((v * 825) >>> (10 : Nat)) (g.sensitivity : Int)) ∧
      (1 ≤ g.num_calibration_samples → g.num_calibration_samples < 65536 →
        ∃ r sensor1 adc1,
          lhe_calibrate g sensor adc = some (r, sensor1, adc1) ∧
          0 ≤ sensor1.offset ∧ sensor1.offset ≤ 4095 ∧ r = sensor1.offset ∧
          to_int16 (((sample_loop g.num_calibration_samples 0
              (adc_select_input sensor.adc_channel adc)).1 / g.num_calibration_samples : Nat) : Int) =
            (((sample_loop g.num_calibration_samples 0
              (adc_select_input sensor.adc_channel adc)).1 / g.num_calibration_samples : Nat) : Int)) ∧
      (∀ p, (lhe_init p g).1.offset = 0) := by
  have hm := batch_mean_le adc hr sensor.adc_channel g.num_samples
  have hget := lhe_get_eq g sensor adc hn hty hr
  have hvr := voltage_of_adc_range
    ((batch_mean adc sensor.adc_channel g.num_samples : Int) - sensor.offset)
    (by omega) (by omega)
  have hv := lhe_get_voltage_of_get _ _ _ _ _ hget
  rw [hvr.2.2] at hv
  have hstr := lhe_get_strength_of_voltage _ _ _ _ _ hv (by omega)
  have hb := tdiv_bounds
    ((((batch_mean adc sensor.adc_channel g.num_samples : Int) - sensor.offset) * 825)
      >>> (10 : Nat)) (g.sensitivity : Int) (by omega)
  have hsr : -3300 ≤ Int.tdiv
        ((((batch_mean adc sensor.adc_channel g.num_samples : Int) - sensor.offset) * 825)
          >>> (10 : Nat)) (g.sensitivity : Int) ∧
      Int.tdiv
        ((((batch_mean adc sensor.adc_channel g.num_samples : Int) - sensor.offset) * 825)
          >>> (10 : Nat)) (g.sensitivity : Int) ≤ 3299 := by
    rcases Int.le_total 0
      ((((batch_mean adc sensor.adc_channel g.num_samples : Int) - sensor.offset) * 825)
        >>> (10 : Nat)) with h0 | h0
    · have := hb.1 h0
      omega
    · have := hb.2 h0
      omega
  have hsfit := to_int16_of_small _ (show (-32768 : Int) ≤ _ by omega)
    (show _ < (32768 : Int) by omega : Int.tdiv
        ((((batch_mean adc sensor.adc_channel g.num_samples : Int) - sensor.offset) * 825)
          >>> (10 : Nat)) (g.sensitivity : Int) < 32768)
  rw [hsfit] at hstr
  refine ⟨⟨_, _, hget, by omega, by omega, ?_, hv, hvr.1, hvr.2.1,
    to_int16_of_small _ (by omega) (by omega), hstr, hsr.1, hsr.2, hsfit⟩, ?_, fun _ => rfl⟩
  · rw [sample_loop_zero _ hty, read_sum_eq_batch_sum adc hr]
    dsimp only
    unfold to_uint16
    unfold batch_mean at hm
    exact Nat.mod_eq_of_lt (by omega)
  · intro hc hcty
    have hmc := batch_mean_le adc hr sensor.adc_channel g.num_calibration_samples
    refine ⟨_, _, _, lhe_calibrate_eq g sensor adc hc hcty hr, ?_, ?_, rfl, ?_⟩
    · show (0 : Int) ≤ (batch_mean adc sensor.adc_channel g.num_calibration_samples : Int)
      omega
    · show (batch_mean adc sensor.adc_channel g.num_calibration_samples : Int) ≤ 4095
      omega
    · rw [sample_loop_zero _ hcty, read_sum_eq_batch_sum adc hr]
      dsimp only
      unfold batch_mean at hmc
      exact to_int16_of_small _ (Int.le_trans (by decide) (Int.ofNat_nonneg _)) (by omega)

/-- Witness of C20: the default statics, offset `4095` and a stream that is
constantly `0`, where `lhe_get` returns the lower bound `-4095`. -/
theorem narrowing_casts_preserve_value_witness :
    ∃ v adc1,
      lhe_get lhe_statics_default { id := 0, adc_channel := 0, offset := 4095 }
        (adc_const 0 0 0) = some (v, adc1) ∧ -4095 ≤ v ∧ v ≤ 4095 := by
  obtain ⟨⟨v, adc1, h, h1, h2, _⟩, _⟩ :=
    narrowing_casts_preserve_value lhe_statics_default
      { id := 0, adc_channel := 0, offset := 4095 } (adc_const 0 0 0)
      (adc_const_in_range 0 0 0 (by decide)) (by decide) (by decide) (by decide) (by decide)
      (by decide)
  exact ⟨v, adc1, h, h1, h2⟩

end LHE
